import Mathlib

/-!
# gormtool: a verification development

A shallow embedding of `gormtool.go` (package `main`): the JSON tag name
strategy installed by `main`, `CmdParams.revise`, `connectDB`, `genModels`
and the call sequence of `main`.

Go strings are byte strings: a `GoString` is the list of its bytes, each a
natural number below 256.  Slicing (`s[:1]`, `s[1:]`) is therefore slicing of
the byte list.
-/

set_option autoImplicit false

namespace Gormtool

/-! ## Go strings -/

/-- A Go string, as the list of its bytes. -/
abbrev GoString := List Nat

/-- UTF-8 encoding of one Unicode scalar value, as Go stores it in a string. -/
def encodeRune (r : Nat) : GoString :=
  if r < 0x80 then [r]
  else if r < 0x800 then [0xC0 + r / 64, 0x80 + r % 64]
  else if r < 0x10000 then [0xE0 + r / 4096, 0x80 + r / 64 % 64, 0x80 + r % 64]
  else [0xF0 + r / 262144, 0x80 + r / 4096 % 64, 0x80 + r / 64 % 64, 0x80 + r % 64]

/-- The Go string written as the literal `s`: the UTF-8 bytes of its characters. -/
def goStr (s : String) : GoString :=
  (s.data.map fun c => encodeRune c.toNat).flatten

/-- The byte of the separator `_` used by the tag name strategy. -/
def underscore : Nat := 0x5F

/-- The byte of the separator `,` used for the `tables` flag. -/
def comma : Nat := 0x2C

/-- `strings.Split(s, sep)` for a one-byte separator `sep`: the segments of `s`
between the occurrences of `sep`, in order.  The result always has one more
element than `s` has occurrences of `sep`. -/
def Split (s : GoString) (sep : Nat) : List GoString :=
  match s with
  | [] => [[]]
  | b :: rest =>
    if b = sep then [] :: Split rest sep
    else
      match Split rest sep with
      | [] => [[b]]
      | seg :: segs => (b :: seg) :: segs

/-- `strings.Join(elems, sep)`: the elements concatenated with `sep` between
each two neighbours. -/
def Join (elems : List GoString) (sep : GoString) : GoString :=
  match elems with
  | [] => []
  | [e] => e
  | e :: rest => e ++ sep ++ Join rest sep

/-- The UTF-8 bytes of `utf8.RuneError` (U+FFFD). -/
def runeError : GoString := [0xEF, 0xBF, 0xBD]

/-- `strings.ToUpper` on the one-byte string `[b]`.  An ASCII byte takes the
ASCII fast path (`a`..`z` are shifted to `A`..`Z`, other bytes are kept); a
byte from `0x80` up is not valid UTF-8 on its own, and `strings.Map` replaces
it by the encoding of `utf8.RuneError`. -/
def ToUpperByte (b : Nat) : GoString :=
  if b < 0x80 then
    if 0x61 ≤ b ∧ b ≤ 0x7A then [b - 0x20] else [b]
  else runeError

/-- `strings.ToLower` on the one-byte string `[b]`; see `ToUpperByte`. -/
def ToLowerByte (b : Nat) : GoString :=
  if b < 0x80 then
    if 0x41 ≤ b ∧ b ≤ 0x5A then [b + 0x20] else [b]
  else runeError

/-- `FirstUpper`: `""` for the empty string, else
`strings.ToUpper(s[:1]) + s[1:]`. -/
def FirstUpper (s : GoString) : GoString :=
  match s with
  | [] => []
  | b :: rest => ToUpperByte b ++ rest

/-- `FirstLower`: `""` for the empty string, else
`strings.ToLower(s[:1]) + s[1:]`. -/
def FirstLower (s : GoString) : GoString :=
  match s with
  | [] => []
  | b :: rest => ToLowerByte b ++ rest

/-- The loop `for i, v := range arr { arr[i] = f(i, v) }`: `todo` iterations
are left, the next index is `i`, and the slice is updated in place. -/
def rangeAssign (f : Nat → GoString → GoString) :
    Nat → Nat → List GoString → List GoString
  | 0, _, arr => arr
  | todo + 1, i, arr => rangeAssign f todo (i + 1) (arr.set i (f i (arr.getD i [])))

/-- The value of the constant `JSONNSCAMEL`. -/
def JSONNSCAMEL : GoString := goStr "camel"

/-- The value of the constant `JSONNSPASCAL`. -/
def JSONNSPASCAL : GoString := goStr "pascal"

/-- The value of the constant `JSONNSUNDER`. -/
def JSONNSUNDER : GoString := goStr "under"

/-- The closure that `main` passes to `g.WithJSONTagNameStrategy`; `strategy` is
the captured `config.JsonTagNameStrategy`. -/
def jsonTagName (strategy : GoString) (columnName : GoString) : GoString :=
  if strategy = JSONNSCAMEL then
    let arr := Split columnName underscore
    let arr := rangeAssign (fun i v => if i = 0 then FirstLower v else FirstUpper v)
      arr.length 0 arr
    Join arr []
  else if strategy = JSONNSPASCAL then
    let arr := Split columnName underscore
    let arr := rangeAssign (fun _ v => FirstUpper v) arr.length 0 arr
    Join arr []
  else
    columnName

/-! ## Where the conversions are idempotent -/

/-- The first byte of `n` that is not the separator `_`, if there is one. -/
def firstLetter (n : GoString) : Option Nat :=
  match n with
  | [] => none
  | b :: rest => if b = underscore then firstLetter rest else some b

/-- An ASCII letter, `A`..`Z` or `a`..`z`. -/
def isLetter (b : Nat) : Bool :=
  (decide (0x41 ≤ b) && decide (b ≤ 0x5A)) || (decide (0x61 ≤ b) && decide (b ≤ 0x7A))

/-- The names whose first byte other than `_`, if any, is ASCII. -/
def asciiStart (n : GoString) : Bool :=
  match firstLetter n with
  | none => true
  | some b => decide (b < 0x80)

/-- The names whose first byte other than `_`, if any, is ASCII and not a letter. -/
def caselessStart (n : GoString) : Bool :=
  match firstLetter n with
  | none => true
  | some b => decide (b < 0x80) && !isLetter b

/-- The empty name, the names that start with an ASCII byte other than `_`, and
the names that start with `_` and whose first byte other than `_`, if any, is
ASCII and not a letter. -/
def camelStable (n : GoString) : Bool :=
  match n with
  | [] => true
  | b :: rest => if b = underscore then caselessStart rest else decide (b < 0x80)

/-- The names that start with `_` and whose first byte other than `_` is a
letter, such as `_foo` and `__Bar`. -/
def letterAfterSeparator (n : GoString) : Bool :=
  match n with
  | [] => false
  | b :: rest =>
    if b = underscore then
      match firstLetter rest with
      | none => false
      | some c => isLetter c
    else false

/-- The in-place loop, specified: element `j` of the slice becomes `f (i + j) v`. -/
def mapFrom (f : Nat → GoString → GoString) : Nat → List GoString → List GoString
  | _, [] => []
  | i, v :: rest => f i v :: mapFrom f (i + 1) rest

/-! ## `strings.TrimSpace` -/

/-- The runes for which `unicode.IsSpace` holds: `\t`, `\n`, `\v`, `\f`, `\r`,
space, U+0085, U+00A0 and the other code points of the Unicode property
`White_Space`. -/
def whiteSpaceRunes : List Nat :=
  [0x09, 0x0A, 0x0B, 0x0C, 0x0D, 0x20, 0x85, 0xA0, 0x1680,
   0x2000, 0x2001, 0x2002, 0x2003, 0x2004, 0x2005, 0x2006, 0x2007, 0x2008, 0x2009, 0x200A,
   0x2028, 0x2029, 0x202F, 0x205F, 0x3000]

/-- The UTF-8 encodings of the white space runes.  The rune decoded at the
start of a string is white space exactly when the string starts with one of
these byte sequences, and likewise for the rune decoded at its end. -/
def spaceEncodings : List GoString := whiteSpaceRunes.map encodeRune

/-- The encoding of the white space rune that `s` starts with, if it starts with one. -/
def leadingSpace (s : GoString) : Option GoString :=
  spaceEncodings.find? fun p => p.isPrefixOf s

/-- The encoding of the white space rune that `s` ends with, if it ends with one. -/
def trailingSpace (s : GoString) : Option GoString :=
  spaceEncodings.find? fun p => p.isSuffixOf s

/-- `strings.TrimLeftFunc(s, unicode.IsSpace)`: drop white space runes from
the left; `fuel` bounds the number of runes dropped. -/
def trimLeftSpace : Nat → GoString → GoString
  | 0, s => s
  | fuel + 1, s =>
    match leadingSpace s with
    | some p => trimLeftSpace fuel (s.drop p.length)
    | none => s

/-- `strings.TrimRightFunc(s, unicode.IsSpace)`: drop white space runes from
the right; `fuel` bounds the number of runes dropped. -/
def trimRightSpace : Nat → GoString → GoString
  | 0, s => s
  | fuel + 1, s =>
    match trailingSpace s with
    | some p => trimRightSpace fuel (s.take (s.length - p.length))
    | none => s

/-- `strings.TrimSpace(s)`: `s` without its leading and trailing white space,
that is `TrimRightFunc(TrimLeftFunc(s, unicode.IsSpace), unicode.IsSpace)`; the
ASCII fast path of the library computes the same string.  Every rune takes at
least one byte, so the length of the string is fuel enough. -/
def TrimSpace (s : GoString) : GoString :=
  let t := trimLeftSpace s.length s
  trimRightSpace t.length t

/-- A string that consists of white space runes only. -/
inductive Blank : GoString → Prop
  | nil : Blank []
  | cons (p s : GoString) : p ∈ spaceEncodings → Blank s → Blank (p ++ s)

/-! ## Configuration -/

/-- The value of the constant `dbMySQL`. -/
def dbMySQL : GoString := goStr "mysql"

/-- The value of the constant `dbPostgres`. -/
def dbPostgres : GoString := goStr "postgres"

/-- The value of the constant `dbSQLite`. -/
def dbSQLite : GoString := goStr "sqlite"

/-- The value of the constant `dbSQLServer`. -/
def dbSQLServer : GoString := goStr "sqlserver"

/-- The value of the constant `dbClickHouse`. -/
def dbClickHouse : GoString := goStr "clickhouse"

/-- The value of the constant `defaultQueryPath`. -/
def defaultQueryPath : GoString := goStr "./dao/query"

/-- The struct `CmdParams`.  A nil and an empty `Tables` slice are both the
empty list: the code only looks at its length and its elements. -/
structure CmdParams where
  DSN : GoString
  DB : GoString
  Tables : List GoString
  OnlyModel : Bool
  OutPath : GoString
  OutFile : GoString
  WithUnitTest : Bool
  ModelPkgName : GoString
  FieldNullable : Bool
  FieldCoverable : Bool
  FieldWithIndexTag : Bool
  FieldWithTypeTag : Bool
  FieldSignable : Bool
  JsonTagNameStrategy : GoString
  TablePrefix : GoString
  SingularTable : Bool
  deriving DecidableEq, Repr

/-- One iteration of the loop of `revise`: trim the name, skip it when it is
empty, else append it to `tableList`. -/
def reviseStep (tableList : List GoString) (tableName : GoString) : List GoString :=
  let _tableName := TrimSpace tableName
  if _tableName = [] then tableList else tableList ++ [_tableName]

/-- The method `(*CmdParams).revise`; `none` is the nil pointer.  The receiver
is updated in place and returned. -/
def revise (c : Option CmdParams) : Option CmdParams :=
  match c with
  | none => none
  | some c =>
    let c := if c.DB = [] then { c with DB := dbMySQL } else c
    let c := if c.OutPath = [] then { c with OutPath := defaultQueryPath } else c
    if c.Tables.length = 0 then some c
    else some { c with Tables := c.Tables.foldl reviseStep [] }

/-- The `tables` flag as `argParse` stores it: nothing for the empty flag value,
else the flag value split on `,`. -/
def tablesOfFlag (tableList : GoString) : List GoString :=
  if tableList ≠ [] then Split tableList comma else []

/-! ## The libraries `gorm` and `gen`, and the calls made on them -/

/-- A Go `error` value built by this program or handed to it by a library. -/
inductive GoError where
  | errorf (format : String) (args : List GoString)
  | wrapf (format : String) (cause : GoError)
  | library (code : Nat)
  deriving DecidableEq, Repr

/-- The value of `schema.NamingStrategy` that `main` builds. -/
structure NamingStrategy where
  TablePrefix : GoString
  SingularTable : Bool
  deriving DecidableEq, Repr

/-- The dialector handed to `gorm.Open`: which driver's `Open(dsn)` built it. -/
inductive Dialector where
  | mysql (dsn : GoString)
  | postgres (dsn : GoString)
  | sqlite (dsn : GoString)
  | sqlserver (dsn : GoString)
  | clickhouse (dsn : GoString)
  deriving DecidableEq, Repr

/-- The pair `(*gorm.DB, error)`: a handle and a nil error, or a (possibly nil)
handle and an error. -/
inductive Opened (DB : Type) where
  | ok (db : DB)
  | fail (db : Option DB) (err : GoError)
  deriving DecidableEq, Repr

/-- The value of `gen.Config` that `main` builds. -/
structure GenConfig where
  OutPath : GoString
  OutFile : GoString
  ModelPkgPath : GoString
  WithUnitTest : Bool
  FieldNullable : Bool
  FieldCoverable : Bool
  FieldWithIndexTag : Bool
  FieldWithTypeTag : Bool
  FieldSignable : Bool
  deriving DecidableEq, Repr

/-- A call that the program makes on `gorm` or on the generator.  The closure
given to `WithJSONTagNameStrategy` is `jsonTagName strategy`, and is recorded
by the strategy it captures. -/
inductive Call (DB Model : Type) where
  | gormOpen (d : Dialector) (s : NamingStrategy)
  | NewGenerator (cfg : GenConfig)
  | WithJSONTagNameStrategy (strategy : GoString)
  | UseDB (db : DB)
  | GetTables (db : DB)
  | GenerateModel (tableName : GoString)
  | ApplyBasic (models : List (Option Model))
  | Execute
  deriving DecidableEq, Repr

/-- What the libraries answer: `gorm.Open`, `db.Migrator().GetTables()` and
`g.GenerateModel`.  The calls are taken to return. -/
structure World (DB Model : Type) where
  gormOpen : Dialector → NamingStrategy → Opened DB
  GetTables : DB → List GoString × Option GoError
  GenerateModel : GoString → Model

/-- How `main` ends: it returns, or `log.Fatalln` ends the process. -/
inductive Exit where
  | returned
  | fatal (message : String) (err : Option GoError)
  deriving DecidableEq, Repr

section Program

variable {DB Model : Type}

/-- The function `connectDB`, with the calls it makes. -/
def connectDB (w : World DB Model) (t : GoString) (dsn : GoString) (s : NamingStrategy) :
    Opened DB × List (Call DB Model) :=
  if dsn = [] then
    (Opened.fail none (GoError.errorf "dsn cannot be empty" []), [])
  else if t = dbMySQL then
    (w.gormOpen (Dialector.mysql dsn) s, [Call.gormOpen (Dialector.mysql dsn) s])
  else if t = dbPostgres then
    (w.gormOpen (Dialector.postgres dsn) s, [Call.gormOpen (Dialector.postgres dsn) s])
  else if t = dbSQLite then
    (w.gormOpen (Dialector.sqlite dsn) s, [Call.gormOpen (Dialector.sqlite dsn) s])
  else if t = dbSQLServer then
    (w.gormOpen (Dialector.sqlserver dsn) s, [Call.gormOpen (Dialector.sqlserver dsn) s])
  else if t = dbClickHouse then
    (w.gormOpen (Dialector.clickhouse dsn) s, [Call.gormOpen (Dialector.clickhouse dsn) s])
  else
    (Opened.fail none
      (GoError.errorf "unknow db %q (support mysql || postgres || sqlite || sqlserver for now)" [t]),
      [])

/-- The loop of `genModels`: `models[i] = g.GenerateModel(tableName)` for the
tables that are left, `i` being the index of the first of them. -/
def genLoop (w : World DB Model) :
    Nat → List GoString → List (Option Model) → List (Call DB Model) →
      List (Option Model) × List (Call DB Model)
  | _, [], models, calls => (models, calls)
  | i, tableName :: rest, models, calls =>
    genLoop w (i + 1) rest (models.set i (some (w.GenerateModel tableName)))
      (calls ++ [Call.GenerateModel tableName])

/-- The function `genModels`, with the calls it makes.  A nil interface value in
`models` is `none`. -/
def genModels (w : World DB Model) (db : DB) (tables : List GoString) :
    (List (Option Model) × Option GoError) × List (Call DB Model) :=
  if tables.length = 0 then
    match w.GetTables db with
    | (_, some err) =>
      (([], some (GoError.wrapf "GORM migrator get all tables fail: %w" err)), [Call.GetTables db])
    | (tables, none) =>
      let r := genLoop w 0 tables (List.replicate tables.length none) [Call.GetTables db]
      ((r.1, none), r.2)
  else
    let r := genLoop w 0 tables (List.replicate tables.length none) []
    ((r.1, none), r.2)

/-- The value of `gen.Config` built from the configuration. -/
def genConfigOf (config : CmdParams) : GenConfig :=
  { OutPath := config.OutPath
    OutFile := config.OutFile
    ModelPkgPath := config.ModelPkgName
    WithUnitTest := config.WithUnitTest
    FieldNullable := config.FieldNullable
    FieldCoverable := config.FieldCoverable
    FieldWithIndexTag := config.FieldWithIndexTag
    FieldWithTypeTag := config.FieldWithTypeTag
    FieldSignable := config.FieldSignable }

/-- The function `main`, from the result of `argParse` and the value of the
flag `-v` on: how it ends, and the calls it makes, in order. -/
def main (w : World DB Model) (parsed : Option CmdParams) (version : Bool) :
    Exit × List (Call DB Model) :=
  match revise parsed with
  | none => (Exit.fatal "parse config fail" none, [])
  | some config =>
    if version then (Exit.returned, [])
    else
      match connectDB w config.DB config.DSN
          { TablePrefix := config.TablePrefix, SingularTable := config.SingularTable } with
      | (Opened.fail _ err, calls) => (Exit.fatal "connect db server fail:" (some err), calls)
      | (Opened.ok db, calls) =>
        let calls := calls ++ [Call.NewGenerator (genConfigOf config),
          Call.WithJSONTagNameStrategy config.JsonTagNameStrategy, Call.UseDB db]
        match genModels w db config.Tables with
        | ((_, some err), made) => (Exit.fatal "get tables info fail:" (some err), calls ++ made)
        | ((models, none), made) =>
          let calls := calls ++ made
          let calls := if !config.OnlyModel then calls ++ [Call.ApplyBasic models] else calls
          (Exit.returned, calls ++ [Call.Execute])

end Program

/-! ## Sample inputs -/

/-- A configuration as `argParse` builds it from `-dsn app.db -db sqlite`. -/
def sampleConfig : CmdParams :=
  { DSN := goStr "app.db"
    DB := goStr "sqlite"
    Tables := []
    OnlyModel := false
    OutPath := goStr "./dao/query"
    OutFile := []
    WithUnitTest := false
    ModelPkgName := []
    FieldNullable := false
    FieldCoverable := false
    FieldWithIndexTag := false
    FieldWithTypeTag := false
    FieldSignable := false
    JsonTagNameStrategy := goStr "under"
    TablePrefix := []
    SingularTable := false }

/-- A database with the three tables `users`, `orders` and `items`; a model is
stood for by the name of its table. -/
def sampleWorld : World Nat GoString :=
  { gormOpen := fun _ _ => Opened.ok 1
    GetTables := fun _ => ([goStr "users", goStr "orders", goStr "items"], none)
    GenerateModel := fun tableName => tableName }

/-- A database that opens, and whose catalog cannot be listed. -/
def lockedWorld : World Nat GoString :=
  { gormOpen := fun _ _ => Opened.ok 1
    GetTables := fun _ => ([], some (GoError.library 1))
    GenerateModel := fun tableName => tableName }

/-! ## Lemmas on strings -/

theorem getD_append_length {α : Type} (pre : List α) (v d : α) (rest : List α) :
    (pre ++ v :: rest).getD pre.length d = v := by
  induction pre with
  | nil => rfl
  | cons p pre ih => simpa [List.getD] using ih

theorem set_append_length {α : Type} (pre : List α) (v w : α) (rest : List α) :
    (pre ++ v :: rest).set pre.length w = pre ++ w :: rest := by
  induction pre with
  | nil => rfl
  | cons p pre ih => simp [List.set, ih]

theorem rangeAssign_append (f : Nat → GoString → GoString) (suf : List GoString) :
    ∀ pre : List GoString,
      rangeAssign f suf.length pre.length (pre ++ suf) = pre ++ mapFrom f pre.length suf := by
  induction suf with
  | nil => intro pre; simp [rangeAssign, mapFrom]
  | cons v rest ih =>
    intro pre
    have h := ih (pre ++ [f pre.length v])
    simp only [List.length_append, List.length_singleton, List.append_assoc,
      List.singleton_append] at h
    simp only [List.length_cons, rangeAssign, mapFrom]
    have hset : (pre ++ v :: rest).set pre.length (f pre.length ((pre ++ v :: rest).getD pre.length []))
        = pre ++ f pre.length v :: rest := by
      rw [getD_append_length, set_append_length]
    rw [hset, h]

theorem rangeAssign_eq (f : Nat → GoString → GoString) (arr : List GoString) :
    rangeAssign f arr.length 0 arr = mapFrom f 0 arr := by
  simpa using rangeAssign_append f arr []

theorem mapFrom_const (g : GoString → GoString) (arr : List GoString) (i : Nat) :
    mapFrom (fun _ v => g v) i arr = arr.map g := by
  induction arr generalizing i with
  | nil => rfl
  | cons v rest ih => simp [mapFrom, ih]

theorem mapFrom_pos (g h : GoString → GoString) (arr : List GoString) (i : Nat) (hi : 0 < i) :
    mapFrom (fun j v => if j = 0 then g v else h v) i arr = arr.map h := by
  induction arr generalizing i with
  | nil => rfl
  | cons v rest ih =>
    have : i ≠ 0 := by omega
    simp [mapFrom, this, ih]

theorem Join_nil (elems : List GoString) : Join elems [] = elems.flatten := by
  induction elems with
  | nil => rfl
  | cons e rest ih =>
    cases rest with
    | nil => simp [Join]
    | cons e2 rest2 => simp only [Join, List.append_nil, List.flatten_cons] at ih ⊢; rw [ih]

theorem Split_ne_nil (s : GoString) (sep : Nat) : Split s sep ≠ [] := by
  cases s with
  | nil => simp [Split]
  | cons b rest =>
    simp only [Split]
    split
    · simp
    · split <;> simp

/-- Joining the segments with the separator gives the string back. -/
theorem Join_Split (s : GoString) (sep : Nat) : Join (Split s sep) [sep] = s := by
  induction s with
  | nil => simp [Split, Join]
  | cons b rest ih =>
    simp only [Split]
    split
    · rename_i hb
      cases hsp : Split rest sep with
      | nil => exact absurd hsp (Split_ne_nil rest sep)
      | cons seg segs =>
        rw [hsp] at ih
        simp only [Join, List.nil_append, List.singleton_append, ih, hb]
    · cases hsp : Split rest sep with
      | nil => exact absurd hsp (Split_ne_nil rest sep)
      | cons seg segs =>
        rw [hsp] at ih
        cases segs with
        | nil => simp only [Join] at ih ⊢; rw [ih]
        | cons s2 segs2 =>
          simp only [Join, List.cons_append, List.append_assoc] at ih ⊢
          rw [ih]

/-- No segment contains the separator. -/
theorem Split_no_sep (s : GoString) (sep : Nat) :
    ∀ seg ∈ Split s sep, sep ∉ seg := by
  induction s with
  | nil => simp [Split]
  | cons b rest ih =>
    simp only [Split]
    split
    · intro seg hseg
      rcases List.mem_cons.mp hseg with h | h
      · simp [h]
      · exact ih seg h
    · rename_i hb
      cases hsp : Split rest sep with
      | nil => exact absurd hsp (Split_ne_nil rest sep)
      | cons seg0 segs =>
        rw [hsp] at ih
        intro seg hseg
        rcases List.mem_cons.mp hseg with h | h
        · subst h
          intro hmem
          rcases List.mem_cons.mp hmem with h1 | h1
          · exact hb h1.symm
          · exact ih seg0 (List.mem_cons_self _ _) h1
        · exact ih seg (List.mem_cons_of_mem _ h)

/-- A separator between `a` and `b` keeps the segments of `a` and those of `b` apart. -/
theorem Split_append_sep (a b : GoString) (sep : Nat) :
    Split (a ++ sep :: b) sep = Split a sep ++ Split b sep := by
  induction a with
  | nil => simp [Split]
  | cons x a ih =>
    have hstep : Split (x :: (a ++ sep :: b)) sep =
        if x = sep then [] :: Split (a ++ sep :: b) sep
        else
          match Split (a ++ sep :: b) sep with
          | [] => [[x]]
          | seg :: segs => (x :: seg) :: segs := rfl
    have hx : Split (x :: a) sep =
        if x = sep then [] :: Split a sep
        else
          match Split a sep with
          | [] => [[x]]
          | seg :: segs => (x :: seg) :: segs := rfl
    rw [List.cons_append, hstep, hx, ih]
    cases hsp : Split a sep with
    | nil => exact absurd hsp (Split_ne_nil a sep)
    | cons s0 ss =>
      by_cases h : x = sep
      · simp only [if_pos h, List.cons_append]
      · simp only [if_neg h, List.cons_append]

theorem jsonTagName_camel (n : GoString) :
    jsonTagName JSONNSCAMEL n =
      FirstLower ((Split n underscore).headD []) ++
        ((Split n underscore).tail.map FirstUpper).flatten := by
  simp only [jsonTagName, if_true, rangeAssign_eq, Join_nil]
  cases hsp : Split n underscore with
  | nil => exact absurd hsp (Split_ne_nil n underscore)
  | cons s rest =>
    simp only [mapFrom, List.flatten_cons, List.headD_cons, List.tail_cons, if_true]
    rw [mapFrom_pos FirstLower FirstUpper rest (0 + 1) (by omega)]

theorem jsonTagName_pascal (n : GoString) :
    jsonTagName JSONNSPASCAL n = ((Split n underscore).map FirstUpper).flatten := by
  have h : JSONNSPASCAL ≠ JSONNSCAMEL := by decide
  simp only [jsonTagName, if_neg h, if_true, rangeAssign_eq, Join_nil, mapFrom_const]

theorem jsonTagName_under (n : GoString) : jsonTagName JSONNSUNDER n = n := by
  have h1 : JSONNSUNDER ≠ JSONNSCAMEL := by decide
  have h2 : JSONNSUNDER ≠ JSONNSPASCAL := by decide
  simp only [jsonTagName, if_neg h1, if_neg h2]

/-! ## The shape of a converted name -/

theorem ToUpperByte_no_sep (b : Nat) (hb : b ≠ underscore) : underscore ∉ ToUpperByte b := by
  unfold ToUpperByte runeError
  unfold underscore at *
  split
  · split
    · simp; omega
    · simp; omega
  · simp

theorem ToLowerByte_no_sep (b : Nat) (hb : b ≠ underscore) : underscore ∉ ToLowerByte b := by
  unfold ToLowerByte runeError
  unfold underscore at *
  split
  · split
    · simp; omega
    · simp; omega
  · simp

theorem FirstUpper_no_sep (s : GoString) (hs : underscore ∉ s) : underscore ∉ FirstUpper s := by
  cases s with
  | nil => simp [FirstUpper]
  | cons b rest =>
    simp only [List.mem_cons, not_or] at hs
    simp only [FirstUpper, List.mem_append, not_or]
    exact ⟨ToUpperByte_no_sep b (fun h => hs.1 h.symm), hs.2⟩

theorem FirstLower_no_sep (s : GoString) (hs : underscore ∉ s) : underscore ∉ FirstLower s := by
  cases s with
  | nil => simp [FirstLower]
  | cons b rest =>
    simp only [List.mem_cons, not_or] at hs
    simp only [FirstLower, List.mem_append, not_or]
    exact ⟨ToLowerByte_no_sep b (fun h => hs.1 h.symm), hs.2⟩

theorem Split_of_not_mem (s : GoString) (sep : Nat) (hs : sep ∉ s) : Split s sep = [s] := by
  induction s with
  | nil => rfl
  | cons b rest ih =>
    simp only [List.mem_cons, not_or] at hs
    have hb : b ≠ sep := fun h => hs.1 h.symm
    simp only [Split, if_neg hb, ih hs.2]

theorem pascal_no_sep (n : GoString) : underscore ∉ jsonTagName JSONNSPASCAL n := by
  rw [jsonTagName_pascal]
  simp only [List.mem_flatten, List.mem_map, not_exists, not_and]
  rintro l ⟨seg, hseg, rfl⟩
  exact FirstUpper_no_sep seg (Split_no_sep n underscore seg hseg)

theorem camel_no_sep (n : GoString) : underscore ∉ jsonTagName JSONNSCAMEL n := by
  rw [jsonTagName_camel]
  cases hsp : Split n underscore with
  | nil => exact absurd hsp (Split_ne_nil n underscore)
  | cons s rest =>
    have hall := Split_no_sep n underscore
    rw [hsp] at hall
    simp only [List.headD_cons, List.tail_cons, List.mem_append, List.mem_flatten, List.mem_map,
      not_or, not_exists, not_and]
    refine ⟨FirstLower_no_sep s (hall s (List.mem_cons_self _ _)), ?_⟩
    rintro l ⟨seg, hseg, rfl⟩
    exact FirstUpper_no_sep seg (hall seg (List.mem_cons_of_mem _ hseg))

theorem pascal_twice (n : GoString) :
    jsonTagName JSONNSPASCAL (jsonTagName JSONNSPASCAL n) =
      FirstUpper (jsonTagName JSONNSPASCAL n) := by
  rw [jsonTagName_pascal (jsonTagName JSONNSPASCAL n), Split_of_not_mem _ _ (pascal_no_sep n)]
  simp

theorem camel_twice (n : GoString) :
    jsonTagName JSONNSCAMEL (jsonTagName JSONNSCAMEL n) =
      FirstLower (jsonTagName JSONNSCAMEL n) := by
  rw [jsonTagName_camel (jsonTagName JSONNSCAMEL n), Split_of_not_mem _ _ (camel_no_sep n)]
  simp

theorem pascal_cons_sep (rest : GoString) :
    jsonTagName JSONNSPASCAL (underscore :: rest) = jsonTagName JSONNSPASCAL rest := by
  simp [jsonTagName_pascal, Split, FirstUpper]

theorem pascal_cons_other (b : Nat) (rest : GoString) (hb : b ≠ underscore) :
    ∃ tail, jsonTagName JSONNSPASCAL (b :: rest) = ToUpperByte b ++ tail := by
  rw [jsonTagName_pascal]
  simp only [Split, if_neg hb]
  cases hsp : Split rest underscore with
  | nil => exact absurd hsp (Split_ne_nil rest underscore)
  | cons seg segs =>
    exact ⟨seg ++ (segs.map FirstUpper).flatten, by simp [FirstUpper]⟩

theorem camel_cons_sep (rest : GoString) :
    jsonTagName JSONNSCAMEL (underscore :: rest) = jsonTagName JSONNSPASCAL rest := by
  simp [jsonTagName_camel, jsonTagName_pascal, Split, FirstLower]

theorem camel_cons_other (b : Nat) (rest : GoString) (hb : b ≠ underscore) :
    ∃ tail, jsonTagName JSONNSCAMEL (b :: rest) = ToLowerByte b ++ tail := by
  rw [jsonTagName_camel]
  simp only [Split, if_neg hb]
  cases hsp : Split rest underscore with
  | nil => exact absurd hsp (Split_ne_nil rest underscore)
  | cons seg segs =>
    exact ⟨seg ++ (segs.map FirstUpper).flatten, by simp [FirstLower]⟩

/-! ## Fixed points of `FirstUpper` and `FirstLower` -/

theorem ToUpperByte_keep (b : Nat) (h : b < 0x80) (h2 : ¬ (0x61 ≤ b ∧ b ≤ 0x7A)) :
    ToUpperByte b = [b] := by
  rw [ToUpperByte, if_pos h, if_neg h2]

theorem ToLowerByte_keep (b : Nat) (h : b < 0x80) (h2 : ¬ (0x41 ≤ b ∧ b ≤ 0x5A)) :
    ToLowerByte b = [b] := by
  rw [ToLowerByte, if_pos h, if_neg h2]

theorem ToUpperByte_shift (b : Nat) (h2 : 0x61 ≤ b ∧ b ≤ 0x7A) :
    ToUpperByte b = [b - 0x20] := by
  rw [ToUpperByte, if_pos (by omega), if_pos h2]

theorem ToLowerByte_shift (b : Nat) (h2 : 0x41 ≤ b ∧ b ≤ 0x5A) :
    ToLowerByte b = [b + 0x20] := by
  rw [ToLowerByte, if_pos (by omega), if_pos h2]

theorem ToUpperByte_high (b : Nat) (h : ¬ b < 0x80) : ToUpperByte b = runeError := by
  rw [ToUpperByte, if_neg h]

theorem ToLowerByte_high (b : Nat) (h : ¬ b < 0x80) : ToLowerByte b = runeError := by
  rw [ToLowerByte, if_neg h]

theorem FirstUpper_runeError (tail : GoString) :
    FirstUpper (runeError ++ tail) ≠ runeError ++ tail := by
  intro heq
  have hlen := congrArg List.length heq
  have hu : ToUpperByte 0xEF = runeError := ToUpperByte_high _ (by omega)
  simp only [runeError, List.cons_append, List.nil_append, FirstUpper] at hlen hu
  rw [hu] at hlen
  simp only [List.length_append, List.length_cons, List.length_nil] at hlen
  omega

theorem FirstLower_runeError (tail : GoString) :
    FirstLower (runeError ++ tail) ≠ runeError ++ tail := by
  intro heq
  have hlen := congrArg List.length heq
  have hu : ToLowerByte 0xEF = runeError := ToLowerByte_high _ (by omega)
  simp only [runeError, List.cons_append, List.nil_append, FirstLower] at hlen hu
  rw [hu] at hlen
  simp only [List.length_append, List.length_cons, List.length_nil] at hlen
  omega

theorem FirstUpper_upper_fixed (b : Nat) (tail : GoString) :
    FirstUpper (ToUpperByte b ++ tail) = ToUpperByte b ++ tail ↔ b < 0x80 := by
  by_cases h : b < 0x80
  · simp only [h, iff_true]
    by_cases h2 : 0x61 ≤ b ∧ b ≤ 0x7A
    · rw [ToUpperByte_shift b h2]
      show ToUpperByte (b - 0x20) ++ tail = _
      rw [ToUpperByte_keep (b - 0x20) (by omega) (by omega)]
    · rw [ToUpperByte_keep b h h2]
      show ToUpperByte b ++ tail = _
      rw [ToUpperByte_keep b h h2]
  · simp only [h, iff_false]
    rw [ToUpperByte_high b h]
    exact FirstUpper_runeError tail

theorem FirstLower_lower_fixed (b : Nat) (tail : GoString) :
    FirstLower (ToLowerByte b ++ tail) = ToLowerByte b ++ tail ↔ b < 0x80 := by
  by_cases h : b < 0x80
  · simp only [h, iff_true]
    by_cases h2 : 0x41 ≤ b ∧ b ≤ 0x5A
    · rw [ToLowerByte_shift b h2]
      show ToLowerByte (b + 0x20) ++ tail = _
      rw [ToLowerByte_keep (b + 0x20) (by omega) (by omega)]
    · rw [ToLowerByte_keep b h h2]
      show ToLowerByte b ++ tail = _
      rw [ToLowerByte_keep b h h2]
  · simp only [h, iff_false]
    rw [ToLowerByte_high b h]
    exact FirstLower_runeError tail

theorem isLetter_eq_false (b : Nat) :
    isLetter b = false ↔ ¬ (0x41 ≤ b ∧ b ≤ 0x5A) ∧ ¬ (0x61 ≤ b ∧ b ≤ 0x7A) := by
  simp only [isLetter, Bool.or_eq_false_iff, Bool.and_eq_false_iff, decide_eq_false_iff_not]
  omega

theorem FirstLower_upper_fixed (b : Nat) (tail : GoString) :
    FirstLower (ToUpperByte b ++ tail) = ToUpperByte b ++ tail ↔
      (b < 0x80 ∧ isLetter b = false) := by
  rw [isLetter_eq_false]
  by_cases h : b < 0x80
  · by_cases h2 : 0x61 ≤ b ∧ b ≤ 0x7A
    · rw [ToUpperByte_shift b h2]
      have hne : FirstLower ([b - 0x20] ++ tail) ≠ [b - 0x20] ++ tail := by
        show ToLowerByte (b - 0x20) ++ tail ≠ _
        rw [ToLowerByte_shift (b - 0x20) (by omega)]
        intro heq
        have h0 := (List.cons.inj heq).1
        omega
      constructor
      · intro heq; exact absurd heq hne
      · intro hc; exact absurd h2 hc.2.2
    · rw [ToUpperByte_keep b h h2]
      by_cases h3 : 0x41 ≤ b ∧ b ≤ 0x5A
      · have hne : FirstLower ([b] ++ tail) ≠ [b] ++ tail := by
          show ToLowerByte b ++ tail ≠ _
          rw [ToLowerByte_shift b h3]
          intro heq
          have h0 := (List.cons.inj heq).1
          omega
        constructor
        · intro heq; exact absurd heq hne
        · intro hc; exact absurd h3 hc.2.1
      · have heq : FirstLower ([b] ++ tail) = [b] ++ tail := by
          show ToLowerByte b ++ tail = _
          rw [ToLowerByte_keep b h h3]
        exact ⟨fun _ => ⟨h, h3, h2⟩, fun _ => heq⟩
  · rw [ToUpperByte_high b h]
    constructor
    · intro heq; exact absurd heq (FirstLower_runeError tail)
    · intro hc; exact absurd hc.1 h

/-! ## Idempotence, characterised -/

theorem FirstUpper_pascal_fixed (n : GoString) :
    FirstUpper (jsonTagName JSONNSPASCAL n) = jsonTagName JSONNSPASCAL n ↔
      asciiStart n = true := by
  induction n with
  | nil => simp [jsonTagName_pascal, Split, FirstUpper, asciiStart, firstLetter]
  | cons b rest ih =>
    by_cases hb : b = underscore
    · subst hb
      rw [pascal_cons_sep, ih]
      simp [asciiStart, firstLetter]
    · obtain ⟨tail, ht⟩ := pascal_cons_other b rest hb
      rw [ht, FirstUpper_upper_fixed]
      simp [asciiStart, firstLetter, hb]

theorem FirstLower_pascal_fixed (n : GoString) :
    FirstLower (jsonTagName JSONNSPASCAL n) = jsonTagName JSONNSPASCAL n ↔
      caselessStart n = true := by
  induction n with
  | nil => simp [jsonTagName_pascal, Split, FirstUpper, FirstLower, caselessStart, firstLetter]
  | cons b rest ih =>
    by_cases hb : b = underscore
    · subst hb
      rw [pascal_cons_sep, ih]
      simp [caselessStart, firstLetter]
    · obtain ⟨tail, ht⟩ := pascal_cons_other b rest hb
      rw [ht, FirstLower_upper_fixed]
      simp [caselessStart, firstLetter, hb]

theorem FirstLower_camel_fixed (n : GoString) :
    FirstLower (jsonTagName JSONNSCAMEL n) = jsonTagName JSONNSCAMEL n ↔
      camelStable n = true := by
  cases n with
  | nil => simp [jsonTagName_camel, Split, FirstLower, camelStable]
  | cons b rest =>
    by_cases hb : b = underscore
    · subst hb
      rw [camel_cons_sep, FirstLower_pascal_fixed]
      simp [camelStable]
    · obtain ⟨tail, ht⟩ := camel_cons_other b rest hb
      rw [ht, FirstLower_lower_fixed]
      simp [camelStable, hb]

theorem camelStable_iff (n : GoString) (hascii : asciiStart n = true) :
    camelStable n = true ↔ letterAfterSeparator n = false := by
  cases n with
  | nil => simp [camelStable, letterAfterSeparator]
  | cons b rest =>
    by_cases hb : b = underscore
    · subst hb
      have hrest : asciiStart rest = true := by
        simpa [asciiStart, firstLetter] using hascii
      simp only [camelStable, letterAfterSeparator, caselessStart, if_true]
      simp only [asciiStart] at hrest
      cases hfl : firstLetter rest with
      | none => simp
      | some c =>
        rw [hfl] at hrest
        simp only at hrest ⊢
        simp [hrest]
    · have hlt : b < 0x80 := by
        simpa [asciiStart, firstLetter, hb] using hascii
      simp [camelStable, letterAfterSeparator, hb, hlt]

/-! ## `strings.TrimSpace`: lemmas -/

theorem spaceEncodings_ne_nil : ∀ p ∈ spaceEncodings, p ≠ [] := by decide

theorem spaceEncodings_prefix_free :
    ∀ p ∈ spaceEncodings, ∀ q ∈ spaceEncodings, p.isPrefixOf q = true → p = q := by decide

theorem leadingSpace_some {s p : GoString} (h : leadingSpace s = some p) :
    p ∈ spaceEncodings ∧ p <+: s := by
  unfold leadingSpace at h
  exact ⟨List.mem_of_find?_eq_some h, by simpa using List.find?_some h⟩

theorem trailingSpace_some {s p : GoString} (h : trailingSpace s = some p) :
    p ∈ spaceEncodings ∧ p <:+ s := by
  unfold trailingSpace at h
  exact ⟨List.mem_of_find?_eq_some h, by simpa using List.find?_some h⟩

theorem leadingSpace_none {s : GoString} :
    leadingSpace s = none ↔ ∀ p ∈ spaceEncodings, ¬ p <+: s := by
  unfold leadingSpace
  simp [List.find?_eq_none]

theorem trailingSpace_none {s : GoString} :
    trailingSpace s = none ↔ ∀ p ∈ spaceEncodings, ¬ p <:+ s := by
  unfold trailingSpace
  simp [List.find?_eq_none]

theorem encoding_length_pos {p : GoString} (hp : p ∈ spaceEncodings) : 0 < p.length :=
  List.length_pos.mpr (spaceEncodings_ne_nil p hp)

theorem leadingSpace_nil : leadingSpace [] = none := by
  rw [leadingSpace_none]
  intro p hp hpre
  exact spaceEncodings_ne_nil p hp (List.prefix_nil.mp hpre)

theorem trailingSpace_nil : trailingSpace [] = none := by
  rw [trailingSpace_none]
  intro p hp hsuf
  exact spaceEncodings_ne_nil p hp (List.suffix_nil.mp hsuf)

/-- With fuel enough, nothing is left to trim on the left. -/
theorem trimLeftSpace_done : ∀ (fuel : Nat) (s : GoString), s.length ≤ fuel →
    leadingSpace (trimLeftSpace fuel s) = none := by
  intro fuel
  induction fuel with
  | zero =>
    intro s hs
    have : s = [] := List.length_eq_zero.mp (by omega)
    subst this
    exact leadingSpace_nil
  | succ k ih =>
    intro s hs
    simp only [trimLeftSpace]
    cases hl : leadingSpace s with
    | none => simpa using hl
    | some p =>
      simp only
      apply ih
      have hp := leadingSpace_some hl
      have := encoding_length_pos hp.1
      have := hp.2.length_le
      simp only [List.length_drop]
      omega

/-- With fuel enough, nothing is left to trim on the right. -/
theorem trimRightSpace_done : ∀ (fuel : Nat) (s : GoString), s.length ≤ fuel →
    trailingSpace (trimRightSpace fuel s) = none := by
  intro fuel
  induction fuel with
  | zero =>
    intro s hs
    have : s = [] := List.length_eq_zero.mp (by omega)
    subst this
    exact trailingSpace_nil
  | succ k ih =>
    intro s hs
    simp only [trimRightSpace]
    cases hl : trailingSpace s with
    | none => simpa using hl
    | some p =>
      simp only
      apply ih
      have hp := trailingSpace_some hl
      have := encoding_length_pos hp.1
      have := hp.2.length_le
      simp only [List.length_take]
      omega

theorem trimRightSpace_initial : ∀ (fuel : Nat) (s : GoString), trimRightSpace fuel s <+: s := by
  intro fuel
  induction fuel with
  | zero => intro s; exact List.prefix_refl s
  | succ k ih =>
    intro s
    simp only [trimRightSpace]
    cases trailingSpace s with
    | none => exact List.prefix_refl s
    | some p => exact (ih _).trans (List.take_prefix _ s)

theorem trimLeftSpace_final : ∀ (fuel : Nat) (s : GoString), trimLeftSpace fuel s <:+ s := by
  intro fuel
  induction fuel with
  | zero => intro s; exact List.suffix_refl s
  | succ k ih =>
    intro s
    simp only [trimLeftSpace]
    cases leadingSpace s with
    | none => exact List.suffix_refl s
    | some p => exact (ih _).trans (List.drop_suffix _ s)

theorem TrimSpace_no_leading (s : GoString) : leadingSpace (TrimSpace s) = none := by
  have hl := trimLeftSpace_done s.length s (Nat.le_refl _)
  rw [leadingSpace_none] at hl ⊢
  intro p hp hpre
  exact hl p hp (hpre.trans (trimRightSpace_initial _ _))

theorem TrimSpace_no_trailing (s : GoString) : trailingSpace (TrimSpace s) = none :=
  trimRightSpace_done _ _ (Nat.le_refl _)

theorem TrimSpace_length_le (s : GoString) : (TrimSpace s).length ≤ s.length :=
  (trimRightSpace_initial _ _).length_le.trans (trimLeftSpace_final _ _).length_le

theorem leadingSpace_append {p : GoString} (hp : p ∈ spaceEncodings) (s : GoString) :
    leadingSpace (p ++ s) = some p := by
  cases hl : leadingSpace (p ++ s) with
  | none =>
    rw [leadingSpace_none] at hl
    exact absurd (List.prefix_append p s) (hl p hp)
  | some q =>
    have hq := leadingSpace_some hl
    have hpq : p <+: q ∨ q <+: p :=
      List.prefix_or_prefix_of_prefix (List.prefix_append p s) hq.2
    rcases hpq with h | h
    · rw [spaceEncodings_prefix_free p hp q hq.1 (by simpa using h)]
    · rw [spaceEncodings_prefix_free q hq.1 p hp (by simpa using h)]

theorem trimLeftSpace_nil (fuel : Nat) : trimLeftSpace fuel [] = [] := by
  cases fuel with
  | zero => rfl
  | succ k => simp [trimLeftSpace, leadingSpace_nil]

theorem trimRightSpace_nil (fuel : Nat) : trimRightSpace fuel [] = [] := by
  cases fuel with
  | zero => rfl
  | succ k => simp [trimRightSpace, trailingSpace_nil]

theorem trimLeftSpace_blank {s : GoString} (hs : Blank s) :
    ∀ fuel : Nat, s.length ≤ fuel → trimLeftSpace fuel s = [] := by
  induction hs with
  | nil => intro fuel _; exact trimLeftSpace_nil fuel
  | cons p s hp _ ih =>
    intro fuel hfuel
    have hpos := encoding_length_pos hp
    simp only [List.length_append] at hfuel
    cases fuel with
    | zero => omega
    | succ k =>
      simp only [trimLeftSpace, leadingSpace_append hp s, List.drop_left]
      exact ih k (by omega)

/-- A string of white space only is trimmed to the empty string. -/
theorem TrimSpace_blank {s : GoString} (hs : Blank s) : TrimSpace s = [] := by
  simp only [TrimSpace, trimLeftSpace_blank hs s.length (Nat.le_refl _)]
  exact trimRightSpace_nil _

theorem Blank_of_mem {p : GoString} (hp : p ∈ spaceEncodings) : Blank p := by
  have h := Blank.cons p [] hp Blank.nil
  simpa using h

theorem Blank_append {a b : GoString} (ha : Blank a) (hb : Blank b) : Blank (a ++ b) := by
  induction ha with
  | nil => simpa using hb
  | cons p s hp _ ih =>
    rw [List.append_assoc]
    exact Blank.cons p (s ++ b) hp ih

theorem trimLeftSpace_split : ∀ (fuel : Nat) (s : GoString),
    ∃ l, Blank l ∧ s = l ++ trimLeftSpace fuel s := by
  intro fuel
  induction fuel with
  | zero => intro s; exact ⟨[], Blank.nil, rfl⟩
  | succ k ih =>
    intro s
    simp only [trimLeftSpace]
    cases hl : leadingSpace s with
    | none => exact ⟨[], Blank.nil, rfl⟩
    | some p =>
      have hp := leadingSpace_some hl
      obtain ⟨l, hbl, hl2⟩ := ih (s.drop p.length)
      refine ⟨p ++ l, Blank_append (Blank_of_mem hp.1) hbl, ?_⟩
      simp only
      rw [List.append_assoc, ← hl2]
      exact (List.prefix_iff_eq_append.mp hp.2).symm

theorem trimRightSpace_split : ∀ (fuel : Nat) (s : GoString),
    ∃ r, Blank r ∧ s = trimRightSpace fuel s ++ r := by
  intro fuel
  induction fuel with
  | zero => intro s; exact ⟨[], Blank.nil, by simp [trimRightSpace]⟩
  | succ k ih =>
    intro s
    simp only [trimRightSpace]
    cases hl : trailingSpace s with
    | none => exact ⟨[], Blank.nil, by simp⟩
    | some p =>
      have hp := trailingSpace_some hl
      obtain ⟨r, hbr, hr2⟩ := ih (s.take (s.length - p.length))
      refine ⟨r ++ p, Blank_append hbr (Blank_of_mem hp.1), ?_⟩
      simp only
      rw [← List.append_assoc, ← hr2]
      exact (List.suffix_iff_eq_append.mp hp.2).symm

/-- What `TrimSpace` removes is white space at the two ends. -/
theorem TrimSpace_split (s : GoString) :
    ∃ l r, Blank l ∧ Blank r ∧ s = l ++ TrimSpace s ++ r := by
  obtain ⟨l, hbl, hl⟩ := trimLeftSpace_split s.length s
  obtain ⟨r, hbr, hr⟩ := trimRightSpace_split (trimLeftSpace s.length s).length
    (trimLeftSpace s.length s)
  refine ⟨l, r, hbl, hbr, ?_⟩
  simp only [TrimSpace, List.append_assoc]
  rw [← hr, ← hl]

/-! ## `revise`: lemmas -/

theorem foldl_reviseStep (tables acc : List GoString) :
    tables.foldl reviseStep acc = acc ++ (tables.map TrimSpace).filter (fun t => t ≠ []) := by
  induction tables generalizing acc with
  | nil => simp
  | cons t rest ih =>
    simp only [List.foldl_cons, List.map_cons, ih, reviseStep]
    by_cases h : TrimSpace t = []
    · simp [h]
    · simp [h]

/-- The configuration that `revise` returns for a configuration that is not nil. -/
theorem revise_some (c : CmdParams) :
    revise (some c) = some
      { c with
        DB := if c.DB = [] then dbMySQL else c.DB
        OutPath := if c.OutPath = [] then defaultQueryPath else c.OutPath
        Tables := (c.Tables.map TrimSpace).filter (fun t => t ≠ []) } := by
  cases c with
  | mk DSN DB Tables OnlyModel OutPath OutFile WithUnitTest ModelPkgName FieldNullable
      FieldCoverable FieldWithIndexTag FieldWithTypeTag FieldSignable JsonTagNameStrategy
      TablePrefix SingularTable =>
    cases Tables with
    | nil => by_cases h1 : DB = [] <;> by_cases h2 : OutPath = [] <;> simp [revise, h1, h2]
    | cons t rest =>
      have hf := foldl_reviseStep (t :: rest) []
      rw [List.nil_append] at hf
      by_cases h1 : DB = [] <;> by_cases h2 : OutPath = [] <;>
        simp [revise, h1, h2, hf, -List.foldl_cons, -List.map_cons]

theorem trimmed_blank_nil (tables : List GoString) (h : ∀ t ∈ tables, Blank t) :
    (tables.map TrimSpace).filter (fun t => t ≠ []) = [] := by
  rw [List.filter_eq_nil_iff]
  intro t ht
  obtain ⟨t0, ht0, rfl⟩ := List.mem_map.mp ht
  simp [TrimSpace_blank (h t0 ht0)]

theorem trimmed_count (tables : List GoString) (x : GoString) :
    ((tables.map TrimSpace).filter (fun t => t ≠ [])).count x =
      if x = [] then 0 else (tables.map TrimSpace).count x := by
  induction tables with
  | nil => simp
  | cons t rest ih =>
    simp only [List.map_cons]
    by_cases ht : TrimSpace t = []
    · have hf : List.filter (fun t => decide (t ≠ [])) (TrimSpace t :: List.map TrimSpace rest) =
          List.filter (fun t => decide (t ≠ [])) (List.map TrimSpace rest) := by
        rw [List.filter_cons_of_neg]; simp [ht]
      rw [hf, ih]
      by_cases hx : x = []
      · simp [hx]
      · have hne : ¬ (TrimSpace t == x) = true := by
          rw [ht]; intro h; exact hx (beq_iff_eq.mp h).symm
        simp only [if_neg hx, List.count_cons, if_neg hne, Nat.add_zero]
    · have hf : List.filter (fun t => decide (t ≠ [])) (TrimSpace t :: List.map TrimSpace rest) =
          TrimSpace t :: List.filter (fun t => decide (t ≠ [])) (List.map TrimSpace rest) := by
        rw [List.filter_cons_of_pos]; simp [ht]
      rw [hf, List.count_cons, ih]
      by_cases hx : x = []
      · have hne : ¬ (TrimSpace t == x) = true := by
          rw [hx]; intro h; exact ht (beq_iff_eq.mp h)
        simp only [if_pos hx, if_neg hne]
      · simp only [if_neg hx, List.count_cons]

/-! ## `genModels`: lemmas -/

section ProgramLemmas

variable {DB Model : Type}

theorem genLoop_append (w : World DB Model) (rest : List GoString) :
    ∀ (pre : List (Option Model)) (calls : List (Call DB Model)),
      genLoop w pre.length rest (pre ++ List.replicate rest.length none) calls =
        (pre ++ rest.map (fun t => some (w.GenerateModel t)),
          calls ++ rest.map Call.GenerateModel) := by
  induction rest with
  | nil => intro pre calls; simp [genLoop]
  | cons t rest ih =>
    intro pre calls
    have h := ih (pre ++ [some (w.GenerateModel t)]) (calls ++ [Call.GenerateModel t])
    simp only [List.length_append, List.length_singleton, List.append_assoc,
      List.singleton_append] at h
    simp only [genLoop, List.length_cons, List.replicate_succ, set_append_length, h,
      List.map_cons]

theorem genLoop_eq (w : World DB Model) (tables : List GoString) (calls : List (Call DB Model)) :
    genLoop w 0 tables (List.replicate tables.length none) calls =
      (tables.map (fun t => some (w.GenerateModel t)), calls ++ tables.map Call.GenerateModel) := by
  simpa using genLoop_append w tables [] calls

theorem genModels_cons (w : World DB Model) (db : DB) (t : GoString) (rest : List GoString) :
    genModels w db (t :: rest) =
      (((t :: rest).map (fun t => some (w.GenerateModel t)), none),
        (t :: rest).map Call.GenerateModel) := by
  simp only [genModels, List.length_cons, Nat.succ_ne_zero, if_false, Nat.add_one_ne_zero]
  rw [← List.length_cons t rest, genLoop_eq]
  simp

theorem genModels_nil_ok (w : World DB Model) (db : DB) (tables : List GoString)
    (h : w.GetTables db = (tables, none)) :
    genModels w db [] =
      ((tables.map (fun t => some (w.GenerateModel t)), none),
        Call.GetTables db :: tables.map Call.GenerateModel) := by
  simp only [genModels, List.length_nil, if_true, h, genLoop_eq]
  simp

theorem genModels_nil_fail (w : World DB Model) (db : DB) (tables : List GoString)
    (err : GoError) (h : w.GetTables db = (tables, some err)) :
    genModels w db [] =
      (([], some (GoError.wrapf "GORM migrator get all tables fail: %w" err)),
        [Call.GetTables db]) := by
  simp only [genModels, List.length_nil, if_true, h]

end ProgramLemmas

/-! ## `connectDB`, `genModels` and `main`: the calls they make -/

section CallLemmas

variable {DB Model : Type}

theorem connectDB_calls (w : World DB Model) (t dsn : GoString) (s : NamingStrategy) :
    ∀ call ∈ (connectDB w t dsn s).2, ∃ d, call = Call.gormOpen d s := by
  unfold connectDB
  split_ifs <;> simp

theorem genModels_calls (w : World DB Model) (db : DB) (tables : List GoString) :
    ∀ call ∈ (genModels w db tables).2,
      call = Call.GetTables db ∨ ∃ t, call = Call.GenerateModel t := by
  cases tables with
  | cons t rest =>
    rw [genModels_cons]
    intro call hcall
    obtain ⟨t2, _, ht2⟩ := List.mem_map.mp hcall
    exact Or.inr ⟨t2, ht2.symm⟩
  | nil =>
    rcases hgt : w.GetTables db with ⟨tbls, _ | err⟩
    · rw [genModels_nil_ok w db tbls hgt]
      intro call hcall
      rcases List.mem_cons.mp hcall with h | h
      · exact Or.inl h
      · obtain ⟨t2, _, ht2⟩ := List.mem_map.mp h
        exact Or.inr ⟨t2, ht2.symm⟩
    · rw [genModels_nil_fail w db tbls err hgt]
      intro call hcall
      exact Or.inl (List.mem_singleton.mp hcall)

theorem connectDB_no_apply (w : World DB Model) (t dsn : GoString) (s : NamingStrategy)
    (ms : List (Option Model)) : Call.ApplyBasic ms ∉ (connectDB w t dsn s).2 := by
  intro h
  obtain ⟨d, hd⟩ := connectDB_calls w t dsn s _ h
  cases hd

theorem genModels_no_apply (w : World DB Model) (db : DB) (tables : List GoString)
    (ms : List (Option Model)) : Call.ApplyBasic ms ∉ (genModels w db tables).2 := by
  intro h
  rcases genModels_calls w db tables _ h with hd | ⟨t, hd⟩ <;> cases hd

/-- The run of `main` once the database is open and the models are generated. -/
theorem main_generated (w : World DB Model) (c config : CmdParams) (db : DB)
    (opened made : List (Call DB Model)) (models : List (Option Model))
    (hrev : revise (some c) = some config)
    (hopen : connectDB w config.DB config.DSN
      { TablePrefix := config.TablePrefix, SingularTable := config.SingularTable } =
        (Opened.ok db, opened))
    (hgen : genModels w db config.Tables = ((models, none), made)) :
    main w (some c) false =
      (Exit.returned,
        opened ++ [Call.NewGenerator (genConfigOf config),
            Call.WithJSONTagNameStrategy config.JsonTagNameStrategy, Call.UseDB db] ++ made ++
          (if config.OnlyModel = true then [] else [Call.ApplyBasic models]) ++ [Call.Execute]) := by
  simp only [main, hrev, hopen, hgen]
  cases config.OnlyModel <;> simp

theorem revise_some_exists (c : CmdParams) :
    ∃ config, revise (some c) = some config ∧ config.OnlyModel = c.OnlyModel :=
  ⟨_, revise_some c, rfl⟩

/-- When `OnlyModel` is set, no run of `main` calls `ApplyBasic`. -/
theorem main_onlyModel_no_apply (w : World DB Model) (c : CmdParams) (version : Bool)
    (honly : c.OnlyModel = true) (ms : List (Option Model)) :
    Call.ApplyBasic ms ∉ (main w (some c) version).2 := by
  obtain ⟨config, hrev, hsame⟩ := revise_some_exists c
  have honly2 : config.OnlyModel = true := by rw [hsame]; exact honly
  simp only [main, hrev]
  cases version with
  | true => simp
  | false =>
    have hno := connectDB_no_apply w config.DB config.DSN
      { TablePrefix := config.TablePrefix, SingularTable := config.SingularTable } ms
    rcases hcd : connectDB w config.DB config.DSN
      { TablePrefix := config.TablePrefix, SingularTable := config.SingularTable }
      with ⟨_ | _, opened⟩
    · rename_i db
      rw [hcd] at hno
      have hno2 := genModels_no_apply w db config.Tables ms
      dsimp only
      rcases hgm : genModels w db config.Tables with ⟨⟨models, _ | err⟩, made⟩
      · rw [hgm] at hno2
        simp only [honly2]
        simpa using ⟨hno, hno2⟩
      · rw [hgm] at hno2
        simpa using ⟨hno, hno2⟩
    · rw [hcd] at hno
      simpa using hno

end CallLemmas



/-! ## The JSON tag name strategy -/

/-- C1: for every column name `n` the tag name strategy returns, under `camel`,
the segments of `n` between the `_` concatenated, the first through `FirstLower`
and the later ones through `FirstUpper`; under `pascal`, all segments through
`FirstUpper`, concatenated; under `under`, `n` itself.  The segments are those of
`strings.Split`: joined by `_` they give `n`, and none contains `_`.
`test_field` gives `testField`, `TestField`, `test_field`; the empty name gives
the empty tag. -/
theorem jsonTagName_conventions (n : GoString) :
    jsonTagName JSONNSCAMEL n =
        FirstLower ((Split n underscore).headD []) ++
          ((Split n underscore).tail.map FirstUpper).flatten ∧
    jsonTagName JSONNSPASCAL n = ((Split n underscore).map FirstUpper).flatten ∧
    jsonTagName JSONNSUNDER n = n ∧
    Join (Split n underscore) [underscore] = n ∧
    (∀ seg ∈ Split n underscore, underscore ∉ seg) ∧
    jsonTagName (goStr "camel") (goStr "test_field") = goStr "testField" ∧
    jsonTagName (goStr "pascal") (goStr "test_field") = goStr "TestField" ∧
    jsonTagName (goStr "under") (goStr "test_field") = goStr "test_field" ∧
    jsonTagName (goStr "camel") [] = [] ∧
    jsonTagName (goStr "pascal") [] = [] ∧
    jsonTagName (goStr "under") [] = [] :=
  ⟨jsonTagName_camel n, jsonTagName_pascal n, jsonTagName_under n, Join_Split n underscore,
    Split_no_sep n underscore, by decide, by decide, by decide, by decide, by decide, by decide⟩

/-- C2, as stated, fails: `camel` turns `_foo` into `Foo`, and `Foo` into `foo`. -/
theorem camel_twice_differs :
    jsonTagName JSONNSCAMEL (goStr "_foo") = goStr "Foo" ∧
    jsonTagName JSONNSCAMEL (goStr "Foo") = goStr "foo" ∧
    jsonTagName JSONNSCAMEL (jsonTagName JSONNSCAMEL (goStr "_foo")) ≠
      jsonTagName JSONNSCAMEL (goStr "_foo") := by decide

/-- C2, amended: `under` is idempotent on every name.  On the names whose first
byte other than `_`, if any, is ASCII, `pascal` is idempotent, and `camel` is
idempotent exactly when the name does not start with `_` with a letter as its
first byte other than `_`.  `testField` is a fixed point of `camel`. -/
theorem jsonTagName_idempotent_ascii (n : GoString) :
    jsonTagName JSONNSUNDER (jsonTagName JSONNSUNDER n) = jsonTagName JSONNSUNDER n ∧
    (asciiStart n = true →
      jsonTagName JSONNSPASCAL (jsonTagName JSONNSPASCAL n) = jsonTagName JSONNSPASCAL n ∧
      (jsonTagName JSONNSCAMEL (jsonTagName JSONNSCAMEL n) = jsonTagName JSONNSCAMEL n ↔
        letterAfterSeparator n = false)) ∧
    jsonTagName JSONNSCAMEL (goStr "testField") = goStr "testField" := by
  refine ⟨by rw [jsonTagName_under, jsonTagName_under], ?_, by decide⟩
  intro hascii
  refine ⟨?_, ?_⟩
  · rw [pascal_twice]; exact (FirstUpper_pascal_fixed n).mpr hascii
  · rw [camel_twice, FirstLower_camel_fixed]
    exact camelStable_iff n hascii

/-- The names `test_field` and `_1st` keep their tags on a second pass of
`pascal` and of `camel`; `_foo` keeps its `pascal` tag only. -/
theorem jsonTagName_idempotent_ascii_witness :
    (jsonTagName JSONNSPASCAL (jsonTagName JSONNSPASCAL (goStr "test_field")) =
        jsonTagName JSONNSPASCAL (goStr "test_field") ∧
      (jsonTagName JSONNSCAMEL (jsonTagName JSONNSCAMEL (goStr "test_field")) =
          jsonTagName JSONNSCAMEL (goStr "test_field") ↔
        letterAfterSeparator (goStr "test_field") = false)) ∧
    (jsonTagName JSONNSPASCAL (jsonTagName JSONNSPASCAL (goStr "_foo")) =
        jsonTagName JSONNSPASCAL (goStr "_foo") ∧
      (jsonTagName JSONNSCAMEL (jsonTagName JSONNSCAMEL (goStr "_foo")) =
          jsonTagName JSONNSCAMEL (goStr "_foo") ↔
        letterAfterSeparator (goStr "_foo") = false)) ∧
    letterAfterSeparator (goStr "test_field") = false ∧
    letterAfterSeparator (goStr "_1st") = false ∧
    letterAfterSeparator (goStr "_foo") = true :=
  ⟨(jsonTagName_idempotent_ascii (goStr "test_field")).2.1 (by decide),
    (jsonTagName_idempotent_ascii (goStr "_foo")).2.1 (by decide),
    by decide, by decide, by decide⟩

/-- C3, as stated, fails: `pascal` does not tell `userId` and `user_id` apart. -/
theorem pascal_userId_not_distinct :
    ¬ (jsonTagName JSONNSPASCAL (goStr "userId") ≠ jsonTagName JSONNSPASCAL (goStr "user_id")) := by
  decide

/-- C3, amended: `pascal` drops the separators, the tag of `a_b` being the tag
of `a` followed by the tag of `b`, and gives the one tag `UserId` to both
`userId` and `user_id`; a tag and no error is all the strategy can return.
Under `under` two names with the same tag are the same name. -/
theorem pascal_userId_same_tag :
    (∀ a b : GoString,
      jsonTagName JSONNSPASCAL (a ++ underscore :: b) =
        jsonTagName JSONNSPASCAL a ++ jsonTagName JSONNSPASCAL b) ∧
    jsonTagName JSONNSPASCAL (goStr "userId") = goStr "UserId" ∧
    jsonTagName JSONNSPASCAL (goStr "user_id") = goStr "UserId" ∧
    (∀ a b : GoString, jsonTagName JSONNSUNDER a = jsonTagName JSONNSUNDER b → a = b) := by
  refine ⟨?_, by decide, by decide, ?_⟩
  · intro a b
    simp only [jsonTagName_pascal, Split_append_sep, List.map_append, List.flatten_append]
  · intro a b h
    rwa [jsonTagName_under, jsonTagName_under] at h

/-! ## `main` and the query API -/

/-- C4, as stated, fails: with `OnlyModel` unset, no table named and a catalog
that cannot be listed, `main` ends in `log.Fatalln` after `GetTables` and never
calls `ApplyBasic` (nor `Execute`). -/
theorem main_locked_no_apply :
    ¬ ((∃ models, Call.ApplyBasic models ∈ (main lockedWorld (some sampleConfig) false).2) ↔
        sampleConfig.OnlyModel = false) := by
  have hrun : main lockedWorld (some sampleConfig) false =
      (Exit.fatal "get tables info fail:"
          (some (GoError.wrapf "GORM migrator get all tables fail: %w" (GoError.library 1))),
        [Call.gormOpen (Dialector.sqlite (goStr "app.db")) { TablePrefix := [], SingularTable := false },
          Call.NewGenerator (genConfigOf sampleConfig),
          Call.WithJSONTagNameStrategy (goStr "under"), Call.UseDB 1, Call.GetTables 1]) := by
    decide
  rw [hrun]
  intro h
  obtain ⟨models, hmem⟩ := h.mpr rfl
  simp at hmem

/-- C4, amended: when `OnlyModel` is set, no run of `main` calls `ApplyBasic`;
and on every run in which the database opens and `genModels` returns no error,
`main` makes the calls of `connectDB`, sets the generator up, makes the calls of
`genModels`, calls `ApplyBasic` on the generated models if and only if
`OnlyModel` is unset, and calls `Execute`. -/
theorem main_onlyModel_scoping {DB Model : Type} (w : World DB Model) (c : CmdParams)
    (version : Bool) :
    (c.OnlyModel = true →
      ∀ models, Call.ApplyBasic models ∉ (main w (some c) version).2) ∧
    (∀ (config : CmdParams) (db : DB) (opened made : List (Call DB Model))
        (models : List (Option Model)),
      revise (some c) = some config →
      connectDB w config.DB config.DSN
        { TablePrefix := config.TablePrefix, SingularTable := config.SingularTable } =
          (Opened.ok db, opened) →
      genModels w db config.Tables = ((models, none), made) →
        main w (some c) false =
          (Exit.returned,
            opened ++ [Call.NewGenerator (genConfigOf config),
                Call.WithJSONTagNameStrategy config.JsonTagNameStrategy, Call.UseDB db] ++ made ++
              (if c.OnlyModel = true then [] else [Call.ApplyBasic models]) ++ [Call.Execute]) ∧
        ((∃ ms, Call.ApplyBasic ms ∈ (main w (some c) false).2) ↔ c.OnlyModel = false)) := by
  refine ⟨fun honly models => main_onlyModel_no_apply w c version honly models, ?_⟩
  intro config db opened made models hrev hopen hgen
  obtain ⟨config2, hrev2, hsame⟩ := revise_some_exists c
  have hcfg : config2 = config := Option.some.inj (hrev2.symm.trans hrev)
  subst hcfg
  have hrun := main_generated w c config2 db opened made models hrev hopen hgen
  rw [hsame] at hrun
  refine ⟨hrun, ?_⟩
  constructor
  · rintro ⟨ms, hms⟩
    cases honly : c.OnlyModel with
    | false => rfl
    | true => exact absurd hms (main_onlyModel_no_apply w c false honly ms)
  · intro honly
    refine ⟨models, ?_⟩
    rw [hrun, honly]
    simp

/-- A run of `main` on the sample database: the query API is requested. -/
theorem main_onlyModel_scoping_witness :
    (∃ ms, Call.ApplyBasic ms ∈ (main sampleWorld (some sampleConfig) false).2) ↔
      sampleConfig.OnlyModel = false :=
  ((main_onlyModel_scoping sampleWorld sampleConfig false).2 sampleConfig 1
    [Call.gormOpen (Dialector.sqlite (goStr "app.db")) { TablePrefix := [], SingularTable := false }]
    [Call.GetTables 1, Call.GenerateModel (goStr "users"), Call.GenerateModel (goStr "orders"),
      Call.GenerateModel (goStr "items")]
    [some (goStr "users"), some (goStr "orders"), some (goStr "items")]
    (by decide) (by decide) (by decide)).2

/-! ## `genModels` -/

/-- C5: for a table list that is not empty, `genModels` returns no error and
the models `GenerateModel(ts[i])`, one per table and in the order of the list,
and calls `GenerateModel` only, never `GetTables`; for the empty list it
generates one model per table that `GetTables` returns, in that order; and when
`GetTables` fails it returns an error and no models. -/
theorem genModels_tables {DB Model : Type} (w : World DB Model) (db : DB) :
    (∀ ts : List GoString, ts ≠ [] →
      genModels w db ts =
        ((ts.map (fun t => some (w.GenerateModel t)), none), ts.map Call.GenerateModel) ∧
      (genModels w db ts).1.1.length = ts.length ∧
      (∀ i : Nat, (genModels w db ts).1.1[i]? = ts[i]?.map (fun t => some (w.GenerateModel t))) ∧
      (∀ d, Call.GetTables d ∉ (genModels w db ts).2)) ∧
    (∀ tables : List GoString, w.GetTables db = (tables, none) →
      genModels w db [] =
        ((tables.map (fun t => some (w.GenerateModel t)), none),
          Call.GetTables db :: tables.map Call.GenerateModel) ∧
      (genModels w db []).1.1.length = tables.length) ∧
    (∀ (tables : List GoString) (err : GoError), w.GetTables db = (tables, some err) →
      genModels w db [] =
        (([], some (GoError.wrapf "GORM migrator get all tables fail: %w" err)),
          [Call.GetTables db])) := by
  refine ⟨?_, ?_, ?_⟩
  · intro ts hts
    cases ts with
    | nil => exact absurd rfl hts
    | cons t rest =>
      have h := genModels_cons w db t rest
      refine ⟨h, ?_, ?_, ?_⟩
      · rw [h]; simp
      · intro i; rw [h]; exact List.getElem?_map _ _ _
      · intro d hd
        rw [h] at hd
        obtain ⟨t2, _, ht2⟩ := List.mem_map.mp hd
        cases ht2
  · intro tables h
    have h2 := genModels_nil_ok w db tables h
    exact ⟨h2, by rw [h2]; simp⟩
  · intro tables err h
    exact genModels_nil_fail w db tables err h

/-- A catalog of three tables gives three models, in the order of the catalog. -/
theorem genModels_tables_witness :
    genModels sampleWorld 1 [] =
        (([some (goStr "users"), some (goStr "orders"), some (goStr "items")], none),
          [Call.GetTables 1, Call.GenerateModel (goStr "users"),
            Call.GenerateModel (goStr "orders"), Call.GenerateModel (goStr "items")]) ∧
    (genModels sampleWorld 1 []).1.1.length = 3 ∧
    genModels sampleWorld 1 [goStr "orders", goStr "users"] =
      (([some (goStr "orders"), some (goStr "users")], none),
        [Call.GenerateModel (goStr "orders"), Call.GenerateModel (goStr "users")]) :=
  ⟨((genModels_tables sampleWorld 1).2.1 [goStr "users", goStr "orders", goStr "items"] rfl).1,
    ((genModels_tables sampleWorld 1).2.1 [goStr "users", goStr "orders", goStr "items"] rfl).2,
    ((genModels_tables sampleWorld 1).1 [goStr "orders", goStr "users"] (by decide)).1⟩

/-! ## `connectDB` -/

/-- C6: with an empty dsn `connectDB` returns the error `dsn cannot be empty`
and a nil handle, for every kind of database, and opens nothing; with a dsn
that is not empty and a kind that is none of `mysql`, `postgres`, `sqlite`,
`sqlserver`, `clickhouse` it returns the unknown-db error and a nil handle, and
opens nothing; with one of the five kinds it makes the one call of `gorm.Open`
on the dialector of that kind, with the naming strategy given, and returns what
that call returns. -/
theorem connectDB_kinds {DB Model : Type} (w : World DB Model) (s : NamingStrategy) :
    (∀ t : GoString,
      connectDB w t [] s = (Opened.fail none (GoError.errorf "dsn cannot be empty" []), [])) ∧
    (∀ t dsn : GoString, dsn ≠ [] →
      t ∉ [goStr "mysql", goStr "postgres", goStr "sqlite", goStr "sqlserver",
        goStr "clickhouse"] →
      connectDB w t dsn s =
        (Opened.fail none (GoError.errorf
          "unknow db %q (support mysql || postgres || sqlite || sqlserver for now)" [t]), [])) ∧
    (∀ dsn : GoString, dsn ≠ [] →
      connectDB w (goStr "mysql") dsn s =
        (w.gormOpen (Dialector.mysql dsn) s, [Call.gormOpen (Dialector.mysql dsn) s]) ∧
      connectDB w (goStr "postgres") dsn s =
        (w.gormOpen (Dialector.postgres dsn) s, [Call.gormOpen (Dialector.postgres dsn) s]) ∧
      connectDB w (goStr "sqlite") dsn s =
        (w.gormOpen (Dialector.sqlite dsn) s, [Call.gormOpen (Dialector.sqlite dsn) s]) ∧
      connectDB w (goStr "sqlserver") dsn s =
        (w.gormOpen (Dialector.sqlserver dsn) s, [Call.gormOpen (Dialector.sqlserver dsn) s]) ∧
      connectDB w (goStr "clickhouse") dsn s =
        (w.gormOpen (Dialector.clickhouse dsn) s,
          [Call.gormOpen (Dialector.clickhouse dsn) s])) := by
  have e1 : dbMySQL = goStr "mysql" := rfl
  have e2 : dbPostgres = goStr "postgres" := rfl
  have e3 : dbSQLite = goStr "sqlite" := rfl
  have e4 : dbSQLServer = goStr "sqlserver" := rfl
  have e5 : dbClickHouse = goStr "clickhouse" := rfl
  have n21 : goStr "postgres" ≠ goStr "mysql" := by decide
  have n31 : goStr "sqlite" ≠ goStr "mysql" := by decide
  have n32 : goStr "sqlite" ≠ goStr "postgres" := by decide
  have n41 : goStr "sqlserver" ≠ goStr "mysql" := by decide
  have n42 : goStr "sqlserver" ≠ goStr "postgres" := by decide
  have n43 : goStr "sqlserver" ≠ goStr "sqlite" := by decide
  have n51 : goStr "clickhouse" ≠ goStr "mysql" := by decide
  have n52 : goStr "clickhouse" ≠ goStr "postgres" := by decide
  have n53 : goStr "clickhouse" ≠ goStr "sqlite" := by decide
  have n54 : goStr "clickhouse" ≠ goStr "sqlserver" := by decide
  refine ⟨?_, ?_, ?_⟩
  · intro t
    simp only [connectDB, if_true]
  · intro t dsn hdsn ht
    simp only [List.mem_cons, List.mem_singleton, List.not_mem_nil, or_false, not_or] at ht
    obtain ⟨h1, h2, h3, h4, h5⟩ := ht
    simp only [connectDB, e1, e2, e3, e4, e5, if_neg hdsn, if_neg h1, if_neg h2, if_neg h3,
      if_neg h4, if_neg h5]
  · intro dsn hdsn
    refine ⟨?_, ?_, ?_, ?_, ?_⟩
    · simp only [connectDB, e1, if_neg hdsn, if_true]
    · simp only [connectDB, e1, e2, if_neg hdsn, if_neg n21, if_true]
    · simp only [connectDB, e1, e2, e3, if_neg hdsn, if_neg n31, if_neg n32, if_true]
    · simp only [connectDB, e1, e2, e3, e4, if_neg hdsn, if_neg n41, if_neg n42, if_neg n43,
        if_true]
    · simp only [connectDB, e1, e2, e3, e4, e5, if_neg hdsn, if_neg n51, if_neg n52, if_neg n53,
        if_neg n54, if_true]

/-- The kind `oracle` is refused, and `sqlite` opens the sqlite dialector. -/
theorem connectDB_kinds_witness :
    connectDB sampleWorld (goStr "oracle") (goStr "app.db") { TablePrefix := [], SingularTable := false } =
        (Opened.fail none (GoError.errorf
          "unknow db %q (support mysql || postgres || sqlite || sqlserver for now)"
          [goStr "oracle"]), []) ∧
    connectDB sampleWorld (goStr "sqlite") (goStr "app.db") { TablePrefix := [], SingularTable := false } =
        (Opened.ok 1,
          [Call.gormOpen (Dialector.sqlite (goStr "app.db"))
            { TablePrefix := [], SingularTable := false }]) :=
  ⟨(connectDB_kinds sampleWorld { TablePrefix := [], SingularTable := false }).2.1
      (goStr "oracle") (goStr "app.db") (by decide) (by decide),
    ((connectDB_kinds sampleWorld { TablePrefix := [], SingularTable := false }).2.2
      (goStr "app.db") (by decide)).2.2.1⟩

/-! ## `revise` -/

/-- C7, as stated, fails: `revise` keeps the table `users` named twice. -/
theorem revise_keeps_duplicates :
    ∃ config, revise (some { sampleConfig with Tables := [goStr "users", goStr "users"] }) =
        some config ∧
      config.Tables = [goStr "users", goStr "users"] ∧ ¬ config.Tables.Nodup :=
  ⟨{ sampleConfig with Tables := [goStr "users", goStr "users"] }, by decide, rfl, by decide⟩

/-- C7, amended: `revise` removes no duplicate.  A name that is not empty
occurs in the revised table list as often as entries of the given list are
trimmed to it, so the revised list is free of duplicates exactly when the
trimmed, non-empty entries of the given list are pairwise distinct. -/
theorem revise_tables_count (c : CmdParams) :
    ∃ config, revise (some c) = some config ∧
      (∀ x : GoString,
        config.Tables.count x = if x = [] then 0 else (c.Tables.map TrimSpace).count x) ∧
      (config.Tables.Nodup ↔ ((c.Tables.map TrimSpace).filter (fun t => t ≠ [])).Nodup) :=
  ⟨_, revise_some c, fun x => trimmed_count c.Tables x, Iff.rfl⟩

/-- C8: the table list of `c.revise()` is the list of the trimmed entries of
`c.Tables` that are not empty, in their order, `strings.TrimSpace` taking white
space off the two ends of a string and nothing else.  So no entry of the result
is empty, none starts or ends with a white space rune, and the result is no
longer than `c.Tables`. -/
theorem revise_tables_trimmed (c : CmdParams) :
    ∃ config, revise (some c) = some config ∧
      config.Tables = (c.Tables.map TrimSpace).filter (fun t => t ≠ []) ∧
      (∀ t ∈ config.Tables, t ≠ [] ∧ leadingSpace t = none ∧ trailingSpace t = none) ∧
      config.Tables.length ≤ c.Tables.length ∧
      (∀ s : GoString, ∃ l r, Blank l ∧ Blank r ∧ s = l ++ TrimSpace s ++ r) := by
  refine ⟨_, revise_some c, rfl, ?_, ?_, TrimSpace_split⟩
  · intro t ht
    obtain ⟨hmem, hne⟩ := List.mem_filter.mp ht
    obtain ⟨t0, _, rfl⟩ := List.mem_map.mp hmem
    exact ⟨by simpa using hne, TrimSpace_no_leading t0, TrimSpace_no_trailing t0⟩
  · calc ((c.Tables.map TrimSpace).filter (fun t => t ≠ [])).length
        ≤ (c.Tables.map TrimSpace).length := List.length_filter_le _ _
      _ = c.Tables.length := List.length_map _ _

/-- C9: `revise` on a nil configuration returns nil; on any other it sets `DB`
to `mysql` when it is empty, `OutPath` to `./dao/query` when it is empty, so
that neither is empty afterwards, and leaves every field other than `DB`,
`OutPath` and `Tables` as it is. -/
theorem revise_defaults (c : CmdParams) :
    revise none = none ∧
    ∃ config, revise (some c) = some config ∧
      config.DB = (if c.DB = [] then goStr "mysql" else c.DB) ∧
      config.OutPath = (if c.OutPath = [] then goStr "./dao/query" else c.OutPath) ∧
      config.DB ≠ [] ∧ config.OutPath ≠ [] ∧
      config.DSN = c.DSN ∧ config.OnlyModel = c.OnlyModel ∧ config.OutFile = c.OutFile ∧
      config.WithUnitTest = c.WithUnitTest ∧ config.ModelPkgName = c.ModelPkgName ∧
      config.FieldNullable = c.FieldNullable ∧ config.FieldCoverable = c.FieldCoverable ∧
      config.FieldWithIndexTag = c.FieldWithIndexTag ∧
      config.FieldWithTypeTag = c.FieldWithTypeTag ∧
      config.FieldSignable = c.FieldSignable ∧
      config.JsonTagNameStrategy = c.JsonTagNameStrategy ∧
      config.TablePrefix = c.TablePrefix ∧ config.SingularTable = c.SingularTable := by
  refine ⟨rfl, _, revise_some c, rfl, rfl, ?_, ?_, rfl, rfl, rfl, rfl, rfl, rfl, rfl, rfl, rfl,
    rfl, rfl, rfl, rfl⟩
  · show (if c.DB = [] then dbMySQL else c.DB) ≠ []
    split
    · decide
    · assumption
  · show (if c.OutPath = [] then defaultQueryPath else c.OutPath) ≠ []
    split
    · decide
    · assumption

/-! ## A table filter of blanks -/

/-- C10: when every entry of the table list is white space only, however many
entries there are, `revise` returns the empty table list; `genModels` on it is `genModels` on
no table list: it calls `GetTables`, and generates one model per table of the
database when that call succeeds; and `main` runs as it does with no table
named. -/
theorem blank_tables_widen {DB Model : Type} (w : World DB Model) (db : DB) (c : CmdParams)
    (version : Bool) (hblank : ∀ t ∈ c.Tables, Blank t) :
    ∃ config, revise (some c) = some config ∧ config.Tables = [] ∧
      genModels w db config.Tables = genModels w db [] ∧
      Call.GetTables db ∈ (genModels w db config.Tables).2 ∧
      (∀ tables : List GoString, w.GetTables db = (tables, none) →
        genModels w db config.Tables =
          ((tables.map (fun t => some (w.GenerateModel t)), none),
            Call.GetTables db :: tables.map Call.GenerateModel)) ∧
      main w (some c) version = main w (some { c with Tables := [] }) version := by
  have hnil := trimmed_blank_nil c.Tables hblank
  have hrev := revise_some c
  rw [hnil] at hrev
  refine ⟨_, hrev, rfl, rfl, ?_, ?_, ?_⟩
  · show Call.GetTables db ∈ (genModels w db []).2
    rcases hgt : w.GetTables db with ⟨tables, _ | err⟩
    · rw [genModels_nil_ok w db tables hgt]; exact List.mem_cons_self _ _
    · rw [genModels_nil_fail w db tables err hgt]; exact List.mem_singleton.mpr rfl
  · intro tables hgt
    exact genModels_nil_ok w db tables hgt
  · have hrev2 := revise_some { c with Tables := [] }
    simp only [main, hrev, hrev2]
    rfl

/-- The flag value ` , ` gives two blank entries, and with them all three
tables of the sample database are generated. -/
theorem blank_tables_widen_witness :
    tablesOfFlag (goStr " , ") = [goStr " ", goStr " "] ∧
    ∃ config, revise (some { sampleConfig with Tables := tablesOfFlag (goStr " , ") }) =
        some config ∧ config.Tables = [] ∧
      genModels sampleWorld 1 config.Tables =
        (([some (goStr "users"), some (goStr "orders"), some (goStr "items")], none),
          [Call.GetTables 1, Call.GenerateModel (goStr "users"),
            Call.GenerateModel (goStr "orders"), Call.GenerateModel (goStr "items")]) := by
  have hsp : goStr " " ∈ spaceEncodings := by decide
  obtain ⟨config, hrev, htab, _, _, hgen, _⟩ :=
    blank_tables_widen sampleWorld 1 { sampleConfig with Tables := tablesOfFlag (goStr " , ") }
      false
      (by
        intro t ht
        have ht2 : t = goStr " " := by
          have hflag : tablesOfFlag (goStr " , ") = [goStr " ", goStr " "] := by decide
          simp only [hflag, List.mem_cons, List.mem_singleton, List.not_mem_nil, or_false,
            or_self] at ht
          exact ht
        rw [ht2]
        exact Blank_of_mem hsp)
  exact ⟨by decide, config, hrev, htab,
    hgen [goStr "users", goStr "orders", goStr "items"] rfl⟩

end Gormtool
